import Mathlib

/-!
# Verification of the WaveSketch telemetry pipeline

This file formalises, over a shallow embedding, the wavelet compression
pipeline of `src/fattree_ecn_clean.cc` (`WaveSketchAgent::HaarTransform`,
`InverseHaarTransform`, `SelectTopK`, and the `WaveSketchMetrics`
functions), the memory-budget arithmetic of `src/Utility/parameter.h`,
the reconstruction driver of `src/offline_evaluator.cpp`, and the CSV
clamp of `src/fattree_k4_replay.cc`.

All quantities that the C++ code holds in `double` are modelled exactly
in the field ℚ(√2): every value produced by the Haar transform of a
rational input lies in this field, since the only irrational constant in
the code is `1/sqrt(2)`.  An element is a pair of rationals `(a, b)`
standing for `a + b·√2`; `Q2.toReal` is the semantic map into ℝ.
-/

/-- The field ℚ(√2), the exact carrier for every intermediate value of the
Haar pipeline: `⟨a, b⟩` denotes the real number `a + b·√2`. -/
structure Q2 where
  a : ℚ
  b : ℚ
  deriving DecidableEq, Repr

namespace Q2

@[ext] theorem ext : ∀ {x y : Q2}, x.a = y.a → x.b = y.b → x = y
  | ⟨_, _⟩, ⟨_, _⟩, rfl, rfl => rfl

instance : Zero Q2 := ⟨⟨0, 0⟩⟩
instance : One Q2 := ⟨⟨1, 0⟩⟩
instance : Add Q2 := ⟨fun x y => ⟨x.a + y.a, x.b + y.b⟩⟩
instance : Neg Q2 := ⟨fun x => ⟨-x.a, -x.b⟩⟩
instance : Mul Q2 := ⟨fun x y => ⟨x.a * y.a + 2 * x.b * y.b, x.a * y.b + x.b * y.a⟩⟩

@[simp] theorem zero_a : (0 : Q2).a = 0 := rfl
@[simp] theorem zero_b : (0 : Q2).b = 0 := rfl
@[simp] theorem one_a : (1 : Q2).a = 1 := rfl
@[simp] theorem one_b : (1 : Q2).b = 0 := rfl
@[simp] theorem add_a (x y : Q2) : (x + y).a = x.a + y.a := rfl
@[simp] theorem add_b (x y : Q2) : (x + y).b = x.b + y.b := rfl
@[simp] theorem neg_a (x : Q2) : (-x).a = -x.a := rfl
@[simp] theorem neg_b (x : Q2) : (-x).b = -x.b := rfl
@[simp] theorem mul_a (x y : Q2) : (x * y).a = x.a * y.a + 2 * x.b * y.b := rfl
@[simp] theorem mul_b (x y : Q2) : (x * y).b = x.a * y.b + x.b * y.a := rfl

/-- Embedding of a rational constant. -/
def ofRat (q : ℚ) : Q2 := ⟨q, 0⟩

instance addCommGroup : AddCommGroup Q2 := by
  refine
  { add := (· + ·)
    zero := (0 : Q2)
    sub := fun x y => x + -y
    neg := Neg.neg
    nsmul := @nsmulRec Q2 ⟨0⟩ ⟨(· + ·)⟩
    zsmul := @zsmulRec Q2 ⟨0⟩ ⟨(· + ·)⟩ ⟨Neg.neg⟩ (@nsmulRec Q2 ⟨0⟩ ⟨(· + ·)⟩)
    add_assoc := ?_
    zero_add := ?_
    add_zero := ?_
    neg_add_cancel := ?_
    add_comm := ?_ } <;>
  intros <;>
  ext <;>
  simp [add_comm, add_left_comm]

instance addGroupWithOne : AddGroupWithOne Q2 :=
  { Q2.addCommGroup with
    natCast := fun n => ofRat n
    intCast := fun n => ofRat n
    one := 1
    natCast_zero := by ext <;> simp [ofRat]
    natCast_succ := fun n => by ext <;> simp [ofRat]
    intCast_ofNat := fun n => by
      show ofRat ((n : ℤ) : ℚ) = ofRat ((n : ℕ) : ℚ)
      ext <;> simp
    intCast_negSucc := fun n => by
      show ofRat ((Int.negSucc n : ℤ) : ℚ) = -(ofRat ((n + 1 : ℕ) : ℚ))
      ext <;> simp [ofRat, Int.negSucc_eq] }

instance commRing : CommRing Q2 := by
  refine
  { Q2.addCommGroup, Q2.addGroupWithOne with
    mul := (· * ·)
    npow := @npowRec Q2 ⟨1⟩ ⟨(· * ·)⟩
    left_distrib := ?_
    right_distrib := ?_
    zero_mul := ?_
    mul_zero := ?_
    mul_assoc := ?_
    one_mul := ?_
    mul_one := ?_
    mul_comm := ?_ } <;>
  intros <;>
  ext <;>
  simp <;>
  ring

@[simp] theorem sub_a (x y : Q2) : (x - y).a = x.a - y.a := by
  rw [sub_eq_add_neg]; simp [sub_eq_add_neg]
@[simp] theorem sub_b (x y : Q2) : (x - y).b = x.b - y.b := by
  rw [sub_eq_add_neg]; simp [sub_eq_add_neg]

@[simp] theorem ofRat_a (q : ℚ) : (ofRat q).a = q := rfl
@[simp] theorem ofRat_b (q : ℚ) : (ofRat q).b = 0 := rfl

/-- Semantics: the real number denoted by an element of ℚ(√2). -/
noncomputable def toReal (x : Q2) : ℝ := (x.a : ℝ) + (x.b : ℝ) * Real.sqrt 2

@[simp] theorem toReal_zero : toReal 0 = 0 := by simp [toReal]
@[simp] theorem toReal_one : toReal 1 = 1 := by simp [toReal]
@[simp] theorem toReal_ofRat (q : ℚ) : toReal (ofRat q) = (q : ℝ) := by simp [toReal]

@[simp] theorem toReal_add (x y : Q2) : toReal (x + y) = toReal x + toReal y := by
  simp [toReal]; ring

@[simp] theorem toReal_neg (x : Q2) : toReal (-x) = -toReal x := by
  simp [toReal]; ring

@[simp] theorem toReal_sub (x y : Q2) : toReal (x - y) = toReal x - toReal y := by
  simp [toReal]; ring

@[simp] theorem toReal_mul (x y : Q2) : toReal (x * y) = toReal x * toReal y := by
  have h2 : Real.sqrt 2 * Real.sqrt 2 = 2 := Real.mul_self_sqrt (by norm_num)
  simp only [toReal, mul_a, mul_b]
  push_cast
  ring_nf
  rw [Real.sq_sqrt (by norm_num : (2:ℝ) ≥ 0)]

theorem toReal_injective : Function.Injective toReal := by
  intro x y h
  by_cases hb : x.b = y.b
  · have ha : (x.a : ℝ) = (y.a : ℝ) := by
      simp only [toReal, hb] at h; linarith
    exact Q2.ext (by exact_mod_cast ha) hb
  · exfalso
    have hbne : ((x.b : ℝ) - (y.b : ℝ)) ≠ 0 := by
      intro hc
      apply hb
      have : (x.b : ℝ) = (y.b : ℝ) := by linarith
      exact_mod_cast this
    have hsqrt : Real.sqrt 2 = ((y.a - x.a) / (x.b - y.b) : ℚ) := by
      simp only [toReal] at h
      push_cast
      field_simp
      linarith
    exact irrational_sqrt_two ⟨_, hsqrt.symm⟩

@[simp] theorem toReal_eq_zero {x : Q2} : toReal x = 0 ↔ x = 0 := by
  constructor
  · intro h; exact toReal_injective (by simpa using h)
  · intro h; simp [h]

/-- Decision procedure for `0 ≤ a + b·√2` by sign analysis on the rational
components (squaring where the signs of the two summands disagree). -/
def nonnegB (x : Q2) : Bool :=
  if 0 ≤ x.a then
    if 0 ≤ x.b then true else decide (2 * x.b ^ 2 ≤ x.a ^ 2)
  else
    if 0 ≤ x.b then decide (x.a ^ 2 ≤ 2 * x.b ^ 2) else false

theorem sqrt_two_pos : (0 : ℝ) < Real.sqrt 2 := Real.sqrt_pos.mpr (by norm_num)

theorem nonnegB_iff {x : Q2} : nonnegB x = true ↔ 0 ≤ toReal x := by
  have hbb : ((x.b : ℝ)) ^ 2 * (Real.sqrt 2 * Real.sqrt 2) = 2 * (x.b : ℝ) ^ 2 := by
    rw [Real.mul_self_sqrt (by norm_num : (0:ℝ) ≤ 2)]; ring
  rcases le_or_lt 0 x.a with ha | ha <;> rcases le_or_lt 0 x.b with hb | hb
  · simp only [nonnegB, if_pos ha, if_pos hb, toReal, true_iff]
    have ha' : (0:ℝ) ≤ (x.a : ℝ) := by exact_mod_cast ha
    have hb' : (0:ℝ) ≤ (x.b : ℝ) := by exact_mod_cast hb
    have := mul_nonneg hb' sqrt_two_pos.le
    linarith
  · simp only [nonnegB, if_pos ha, if_neg (not_le.mpr hb), toReal, decide_eq_true_eq]
    have ha' : (0:ℝ) ≤ (x.a : ℝ) := by exact_mod_cast ha
    have hb' : ((x.b : ℝ)) < 0 := by exact_mod_cast hb
    have hb2 : (0:ℝ) < -(x.b : ℝ) * Real.sqrt 2 := mul_pos (by linarith) sqrt_two_pos
    have pos2 : (0:ℝ) < (x.a : ℝ) - (x.b : ℝ) * Real.sqrt 2 := by linarith
    constructor
    · intro h
      have h' : 2 * (x.b : ℝ) ^ 2 ≤ (x.a : ℝ) ^ 2 := by exact_mod_cast h
      by_contra hc
      rw [not_le] at hc
      have pos1 : (0:ℝ) < -((x.a : ℝ) + (x.b : ℝ) * Real.sqrt 2) := by linarith
      nlinarith [mul_pos pos1 pos2, hbb]
    · intro h
      have key := mul_nonneg h pos2.le
      have goal : 2 * (x.b : ℝ) ^ 2 ≤ (x.a : ℝ) ^ 2 := by nlinarith [key, hbb]
      exact_mod_cast goal
  · simp only [nonnegB, if_neg (not_le.mpr ha), if_pos hb, toReal, decide_eq_true_eq]
    have ha' : ((x.a : ℝ)) < 0 := by exact_mod_cast ha
    have hb' : (0:ℝ) ≤ (x.b : ℝ) := by exact_mod_cast hb
    have hb2 : (0:ℝ) ≤ (x.b : ℝ) * Real.sqrt 2 := mul_nonneg hb' sqrt_two_pos.le
    have pos2 : (0:ℝ) < -(x.a : ℝ) + (x.b : ℝ) * Real.sqrt 2 := by linarith
    constructor
    · intro h
      have h' : ((x.a : ℝ)) ^ 2 ≤ 2 * (x.b : ℝ) ^ 2 := by exact_mod_cast h
      by_contra hc
      rw [not_le] at hc
      have pos1 : (0:ℝ) < -((x.a : ℝ) + (x.b : ℝ) * Real.sqrt 2) := by linarith
      nlinarith [mul_pos pos1 pos2, hbb]
    · intro h
      have key := mul_nonneg h pos2.le
      have goal : ((x.a : ℝ)) ^ 2 ≤ 2 * (x.b : ℝ) ^ 2 := by nlinarith [key, hbb]
      exact_mod_cast goal
  · have ha' : ((x.a : ℝ)) < 0 := by exact_mod_cast ha
    have hb' : ((x.b : ℝ)) < 0 := by exact_mod_cast hb
    have hb2 : ((x.b : ℝ)) * Real.sqrt 2 < 0 := mul_neg_of_neg_of_pos hb' sqrt_two_pos
    refine iff_of_false (by simp [nonnegB, if_neg (not_le.mpr ha), if_neg (not_le.mpr hb)]) ?_
    rw [not_le]
    show (x.a : ℝ) + (x.b : ℝ) * Real.sqrt 2 < 0
    linarith

/-- Boolean `x ≤ y` on ℚ(√2), agreeing with the real order. -/
def leB (x y : Q2) : Bool := nonnegB (y - x)

/-- Boolean `x < y` on ℚ(√2), agreeing with the real order. -/
def ltB (x y : Q2) : Bool := !leB y x

theorem leB_iff {x y : Q2} : leB x y = true ↔ toReal x ≤ toReal y := by
  rw [leB, nonnegB_iff, toReal_sub, sub_nonneg]

theorem ltB_iff {x y : Q2} : ltB x y = true ↔ toReal x < toReal y := by
  rw [ltB, Bool.not_eq_true', ← Bool.not_eq_true, ← not_iff_not, not_not, leB_iff, not_lt]

/-- Absolute value on ℚ(√2): exact model of `std::abs` on the embedded reals. -/
def absQ (x : Q2) : Q2 := if nonnegB x then x else -x

theorem toReal_absQ (x : Q2) : toReal (absQ x) = |toReal x| := by
  rcases h : nonnegB x with h' | h'
  · rw [absQ, h]
    simp only [Bool.false_eq_true, if_false, toReal_neg]
    have : ¬ (0 ≤ toReal x) := by rw [← nonnegB_iff, h]; simp
    rw [abs_of_neg (lt_of_not_le this)]
  · rw [absQ, h, if_pos rfl, abs_of_nonneg (nonnegB_iff.mp h)]

end Q2

/-!
## The Haar pipeline of `WaveSketchAgent` (src/fattree_ecn_clean.cc)

`HaarTransform m` models `WaveSketchAgent::HaarTransform` on an input of
length `2 ^ m` (the C++ code first pads any other length up to the next
power of two; every claim concerns power-of-two lengths, `m` counts the
halving passes of its `while (currentSize > 1)` loop).  Each pass turns
the active prefix into pairwise sums and appends pairwise differences,
both scaled by `INV_SQRT2 = 1/sqrt(2)`; the recursion reproduces the
exact final array layout `[approx, detail_top, …, detail_level1]`.

`InverseHaarTransform m` models `WaveSketchAgent::InverseHaarTransform`
on a coefficient vector of length `2 ^ m` with `originalSize` equal to
the full length (the configuration every claim exercises): each doubling
pass maps parent `a` and detail `d` to children `(a + d) * SQRT2 / 2`
and `(a - d) * SQRT2 / 2`; since `sqrt(2)/2 = 1/sqrt(2)`, the scale is
again `invSqrt2`.
-/

namespace WaveSketchAgent

/-- The constant `INV_SQRT2 = 1.0 / std::sqrt(2.0)`, exactly `√2/2` in ℚ(√2). -/
def invSqrt2 : Q2 := ⟨0, 1/2⟩

/-- One forward pass, sums half: `tempVector[j] = (a + b) * INV_SQRT2`. -/
def pairAvg : List Q2 → List Q2
  | a :: b :: rest => (a + b) * invSqrt2 :: pairAvg rest
  | _ => []

/-- One forward pass, differences half: `tempVector[j + nextSize] = (a - b) * INV_SQRT2`. -/
def pairDiff : List Q2 → List Q2
  | a :: b :: rest => (a - b) * invSqrt2 :: pairDiff rest
  | _ => []

/-- Model of `WaveSketchAgent::HaarTransform`: `m` halving passes on a length-`2^m` input. -/
def HaarTransform : ℕ → List Q2 → List Q2
  | 0, v => v
  | m + 1, v => HaarTransform m (pairAvg v) ++ pairDiff v

/-- One inverse pass: children `(a + d) * SQRT2/2` and `(a - d) * SQRT2/2`. -/
def invStep : List Q2 → List Q2 → List Q2
  | a :: as, d :: ds => (a + d) * invSqrt2 :: (a - d) * invSqrt2 :: invStep as ds
  | _, _ => []

/-- Model of `WaveSketchAgent::InverseHaarTransform`: `m` doubling passes on a
length-`2^m` coefficient vector (with `originalSize` the full length). -/
def InverseHaarTransform : ℕ → List Q2 → List Q2
  | 0, c => c
  | m + 1, c => invStep (InverseHaarTransform m (c.take (2 ^ m))) (c.drop (2 ^ m))

theorem pairAvg_length (n : ℕ) : ∀ (v : List Q2), v.length = 2 * n →
    (pairAvg v).length = n := by
  induction n with
  | zero =>
    intro v h
    rw [Nat.mul_zero, List.length_eq_zero] at h
    subst h
    rfl
  | succ n ih =>
    intro v h
    match v with
    | [] => simp at h
    | [a] => simp at h; omega
    | a :: b :: rest =>
      have hr : rest.length = 2 * n := by
        simp only [List.length_cons] at h; omega
      simp only [pairAvg, List.length_cons, ih rest hr]

theorem pairDiff_length (n : ℕ) : ∀ (v : List Q2), v.length = 2 * n →
    (pairDiff v).length = n := by
  induction n with
  | zero =>
    intro v h
    rw [Nat.mul_zero, List.length_eq_zero] at h
    subst h
    rfl
  | succ n ih =>
    intro v h
    match v with
    | [] => simp at h
    | [a] => simp at h; omega
    | a :: b :: rest =>
      have hr : rest.length = 2 * n := by
        simp only [List.length_cons] at h; omega
      simp only [pairDiff, List.length_cons, ih rest hr]

theorem HaarTransform_length : ∀ (m : ℕ) (v : List Q2), v.length = 2 ^ m →
    (HaarTransform m v).length = 2 ^ m
  | 0, v, h => h
  | m + 1, v, h => by
    have hv : v.length = 2 * 2 ^ m := by rw [h]; ring
    simp only [HaarTransform, List.length_append,
      HaarTransform_length m (pairAvg v) (pairAvg_length (2 ^ m) v hv),
      pairDiff_length (2 ^ m) v hv]
    ring

/-- The scale constants of the forward and the inverse step are exact
inverses: `2 · invSqrt2² = 1` in ℚ(√2). -/
theorem invSqrt2_sq : invSqrt2 * invSqrt2 + invSqrt2 * invSqrt2 = 1 := by
  ext <;> norm_num [invSqrt2]

theorem invStep_fst (a b : Q2) :
    ((a + b) * invSqrt2 + (a - b) * invSqrt2) * invSqrt2 = a := by
  linear_combination a * invSqrt2_sq

theorem invStep_snd (a b : Q2) :
    ((a + b) * invSqrt2 - (a - b) * invSqrt2) * invSqrt2 = b := by
  linear_combination b * invSqrt2_sq

theorem invStep_pairAvg_pairDiff (n : ℕ) : ∀ (v : List Q2), v.length = 2 * n →
    invStep (pairAvg v) (pairDiff v) = v := by
  induction n with
  | zero =>
    intro v h
    rw [Nat.mul_zero, List.length_eq_zero] at h
    subst h
    rfl
  | succ n ih =>
    intro v h
    match v with
    | [] => simp at h
    | [a] => simp at h; omega
    | a :: b :: rest =>
      have hr : rest.length = 2 * n := by
        simp only [List.length_cons] at h; omega
      simp only [pairAvg, pairDiff, invStep]
      rw [invStep_fst, invStep_snd, ih rest hr]

/-- Forward/inverse exactness: on any power-of-two-length vector the
inverse transform applied to the full coefficient vector returns the
input exactly. -/
theorem InverseHaarTransform_HaarTransform (m : ℕ) (v : List Q2)
    (h : v.length = 2 ^ m) : InverseHaarTransform m (HaarTransform m v) = v := by
  induction m generalizing v with
  | zero => simp [HaarTransform, InverseHaarTransform]
  | succ m ih =>
    have hv : v.length = 2 * 2 ^ m := by rw [h]; ring
    have hlen : (HaarTransform m (pairAvg v)).length = 2 ^ m :=
      HaarTransform_length m (pairAvg v) (pairAvg_length (2 ^ m) v hv)
    simp only [HaarTransform, InverseHaarTransform]
    rw [List.take_left' hlen, List.drop_left' hlen,
      ih (pairAvg v) (pairAvg_length (2 ^ m) v hv),
      invStep_pairAvg_pairDiff (2 ^ m) v hv]

end WaveSketchAgent

/-!
## Top-K selection (`WaveSketchAgent::SelectTopK`)

The C++ routine builds a `Coeff {index, value, magnitude}` per position,
sorts all of them with `std::sort` under the comparator
`magnitude > other.magnitude` (descending magnitude) and keeps the first
`min(size, MAX_K_COEFFICIENTS)`.  We model the coefficient records as
pairs `(index, value)` (magnitude is recomputed from the value), and
`std::sort` as the stable `insertionSort` under the reflexive descending
magnitude order: `std::sort` leaves the relative order of
equal-magnitude records unspecified, inserting stably fixes one of the
permitted outcomes.
-/

namespace WaveSketchAgent

/-- The sort order of `Coeff::operator<`: descending weighted magnitude
(reflexive closure, as required for a sorting relation). -/
def magGe (x y : ℕ × Q2) : Prop := Q2.leB (Q2.absQ y.2) (Q2.absQ x.2) = true

instance : DecidableRel magGe := fun x y => by unfold magGe; infer_instance

instance : IsTotal (ℕ × Q2) magGe :=
  ⟨fun x y => by
    rcases le_total (Q2.toReal (Q2.absQ y.2)) (Q2.toReal (Q2.absQ x.2)) with h | h
    · exact Or.inl (Q2.leB_iff.mpr h)
    · exact Or.inr (Q2.leB_iff.mpr h)⟩

instance : IsTrans (ℕ × Q2) magGe :=
  ⟨fun _ _ _ hxy hyz =>
    Q2.leB_iff.mpr (le_trans (Q2.leB_iff.mp hyz) (Q2.leB_iff.mp hxy))⟩

/-- The constant `MAX_K_COEFFICIENTS` of src/fattree_ecn_clean.cc. -/
def MAX_K_COEFFICIENTS : ℕ := 4

/-- Model of `WaveSketchAgent::SelectTopK` with the retained-coefficient count `K`
as a parameter (the source hard-codes `K = MAX_K_COEFFICIENTS`):
enumerate, sort by descending magnitude, keep the first
`min(K, size)` records. -/
def SelectTopKWith (K : ℕ) (coefficients : List Q2) : List (ℕ × Q2) :=
  (coefficients.enum.insertionSort magGe).take K

/-- Model of `WaveSketchAgent::SelectTopK` exactly as in the source (`K = 4`). -/
def SelectTopK (coefficients : List Q2) : List (ℕ × Q2) :=
  SelectTopKWith MAX_K_COEFFICIENTS coefficients

/-- The `compressedCoeffs` vector of `CompressAndAnalyze`: a zero vector
of the coefficients' length with each selected coefficient written back
at its own index (`compressedCoeffs[c.index] = c.value`). -/
def compressedCoeffs (K : ℕ) (coeffs : List Q2) : List Q2 :=
  coeffs.enum.map fun p =>
    if (SelectTopKWith K coeffs).any (fun q => decide (q.1 = p.1)) then p.2 else 0

/-- The per-flow rebuild pipeline of `CompressAndAnalyze`: forward
transform, top-K selection, zero-filled coefficient vector, inverse
transform. -/
def rebuildPipeline (m K : ℕ) (v : List Q2) : List Q2 :=
  InverseHaarTransform m (compressedCoeffs K (HaarTransform m v))

/-- Number of non-zero entries of a coefficient vector. -/
def countNZ (l : List Q2) : ℕ := (l.filter fun x => decide (x ≠ 0)).length

theorem sorted_enum_sort (c : List Q2) :
    List.Sorted magGe (c.enum.insertionSort magGe) :=
  List.sorted_insertionSort magGe c.enum

theorem enum_fst_inj {l : List Q2} {p q : ℕ × Q2}
    (hp : p ∈ l.enum) (hq : q ∈ l.enum) (h : p.1 = q.1) : p = q := by
  obtain ⟨i, x⟩ := p
  obtain ⟨j, y⟩ := q
  obtain rfl : i = j := h
  rw [List.mk_mem_enum_iff_getElem?] at hp hq
  rw [hp] at hq
  obtain rfl : x = y := by injection hq
  rfl

theorem nodup_enum_sort (c : List Q2) :
    (c.enum.insertionSort magGe).Nodup := by
  refine ((List.perm_insertionSort magGe c.enum).nodup_iff).mpr ?_
  exact (List.nodup_enum_map_fst c).of_map Prod.fst

theorem selectTopKWith_length (K : ℕ) (c : List Q2) :
    (SelectTopKWith K c).length = min K c.length := by
  simp [SelectTopKWith]

/-- The records `std::sort` places after the first `K` — the coefficients
`SelectTopKWith` discards. -/
def discardedWith (K : ℕ) (coefficients : List Q2) : List (ℕ × Q2) :=
  (coefficients.enum.insertionSort magGe).drop K

/-- Every retained record outranks (in weighted magnitude) every
discarded record: the sorted list relates its `take` to its `drop`. -/
theorem magGe_topK_discarded {K : ℕ} {c : List Q2} {p q : ℕ × Q2}
    (hp : p ∈ SelectTopKWith K c) (hq : q ∈ discardedWith K c) : magGe p q :=
  (sorted_enum_sort c).rel_of_mem_take_of_mem_drop hp hq

theorem abs_toReal_discarded_le {K : ℕ} {c : List Q2} {p q : ℕ × Q2}
    (hp : p ∈ SelectTopKWith K c) (hq : q ∈ discardedWith K c) :
    |Q2.toReal q.2| ≤ |Q2.toReal p.2| := by
  have h := Q2.leB_iff.mp (magGe_topK_discarded hp hq)
  rwa [Q2.toReal_absQ, Q2.toReal_absQ] at h

/-- The Boolean test `compressedCoeffs` applies at index `i`. -/
def keepB (K : ℕ) (c : List Q2) (i : ℕ) : Bool :=
  (SelectTopKWith K c).any fun q => decide (q.1 = i)

theorem mem_topK_of_keepB {K : ℕ} {c : List Q2} {p : ℕ × Q2}
    (hp : p ∈ c.enum) (h : keepB K c p.1 = true) : p ∈ SelectTopKWith K c := by
  rw [keepB, List.any_eq_true] at h
  obtain ⟨q, hq, hqi⟩ := h
  rw [decide_eq_true_eq] at hqi
  have hq_enum : q ∈ c.enum := by
    have : q ∈ c.enum.insertionSort magGe :=
      List.mem_of_mem_take (by simpa [SelectTopKWith] using hq)
    exact (List.mem_insertionSort magGe).mp this
  rwa [← enum_fst_inj hq_enum hp hqi]

theorem keepB_of_mem_topK {K : ℕ} {c : List Q2} {p : ℕ × Q2}
    (hp : p ∈ SelectTopKWith K c) : keepB K c p.1 = true := by
  rw [keepB, List.any_eq_true]
  exact ⟨p, hp, by simp⟩

theorem not_keepB_of_mem_discarded {K : ℕ} {c : List Q2} {p : ℕ × Q2}
    (hp : p ∈ discardedWith K c) : keepB K c p.1 = false := by
  rw [Bool.eq_false_iff]
  intro h
  have hp_enum : p ∈ c.enum := by
    have : p ∈ c.enum.insertionSort magGe :=
      List.mem_of_mem_drop (by simpa [discardedWith] using hp)
    exact (List.mem_insertionSort magGe).mp this
  have hp_top : p ∈ SelectTopKWith K c := mem_topK_of_keepB hp_enum h
  have hdisj : List.Disjoint (SelectTopKWith K c) (discardedWith K c) :=
    List.disjoint_take_drop (nodup_enum_sort c) le_rfl
  exact hdisj hp_top hp

theorem mem_discarded_of_not_keepB {K : ℕ} {c : List Q2} {p : ℕ × Q2}
    (hp : p ∈ c.enum) (h : keepB K c p.1 = false) : p ∈ discardedWith K c := by
  have hsort : p ∈ c.enum.insertionSort magGe := (List.mem_insertionSort magGe).mpr hp
  rw [← List.take_append_drop K (c.enum.insertionSort magGe), List.mem_append] at hsort
  rcases hsort with htake | hdrop
  · rw [keepB_of_mem_topK (by simpa [SelectTopKWith] using htake)] at h
    cases h
  · simpa [discardedWith] using hdrop

theorem countNZ_eq_countP (l : List Q2) :
    countNZ l = l.countP fun x => decide (x ≠ 0) := by
  rw [countNZ, List.countP_eq_length_filter]

/-- If at most `K` coefficients are non-zero then every discarded record
carries the value `0`: a non-zero discarded value would force all `K`
retained records (whose magnitudes dominate it) to be non-zero as well,
exceeding the non-zero count. -/
theorem discarded_eq_zero_of_countNZ_le {K : ℕ} {c : List Q2}
    (hK : countNZ c ≤ K) {p : ℕ × Q2} (hp : p ∈ discardedWith K c) : p.2 = 0 := by
  by_contra hpz
  set s := c.enum.insertionSort magGe with hs
  have hlen : K < s.length := by
    by_contra hle
    rw [not_lt] at hle
    have : discardedWith K c = [] := List.drop_eq_nil_of_le hle
    rw [this] at hp
    cases hp
  have htake_len : (s.take K).length = K := by
    rw [List.length_take]
    omega
  have htake_all : ∀ q ∈ s.take K, (fun x : ℕ × Q2 => decide (x.2 ≠ 0)) q = true := by
    intro q hq
    have hmag := abs_toReal_discarded_le (K := K) (c := c) hq hp
    have hpz' : Q2.toReal p.2 ≠ 0 := fun h => hpz (Q2.toReal_eq_zero.mp h)
    have : (0:ℝ) < |Q2.toReal q.2| := lt_of_lt_of_le (abs_pos.mpr hpz') hmag
    have hq2 : Q2.toReal q.2 ≠ 0 := abs_pos.mp this
    simpa using fun h => hq2 (by rw [h]; exact Q2.toReal_zero)
  have hcount_take : (s.take K).countP (fun x : ℕ × Q2 => decide (x.2 ≠ 0)) = K := by
    rw [List.countP_eq_length.mpr htake_all, htake_len]
  have hcount_drop : 0 < (s.drop K).countP (fun x : ℕ × Q2 => decide (x.2 ≠ 0)) := by
    rw [List.countP_pos_iff]
    exact ⟨p, hp, by simpa using hpz⟩
  have hsplit : s.countP (fun x : ℕ × Q2 => decide (x.2 ≠ 0)) =
      (s.take K).countP (fun x : ℕ × Q2 => decide (x.2 ≠ 0)) +
      (s.drop K).countP (fun x : ℕ × Q2 => decide (x.2 ≠ 0)) := by
    conv_lhs => rw [← List.take_append_drop K s]
    rw [List.countP_append]
  have henum : s.countP (fun x : ℕ × Q2 => decide (x.2 ≠ 0)) =
      c.countP fun x => decide (x ≠ 0) := by
    rw [(List.perm_insertionSort magGe c.enum).countP_eq]
    have : c.enum.map Prod.snd = c := by
      rw [List.enum_eq_enumFrom, List.enumFrom_map_snd]
    conv_rhs => rw [← this]
    rw [List.countP_map]
    rfl
  rw [countNZ_eq_countP] at hK
  omega

/-- Under `countNZ c ≤ K` the zero-filled compressed vector is the whole
coefficient vector. -/
theorem compressedCoeffs_of_countNZ_le {K : ℕ} {c : List Q2}
    (hK : countNZ c ≤ K) : compressedCoeffs K c = c := by
  have hmap : ∀ p ∈ c.enum,
      (if (SelectTopKWith K c).any (fun q => decide (q.1 = p.1)) then p.2 else (0:Q2)) =
        Prod.snd p := by
    intro p hp
    by_cases hkeep : keepB K c p.1 = true
    · rw [if_pos (by simpa [keepB] using hkeep)]
    · have hfalse : keepB K c p.1 = false := by
        cases h' : keepB K c p.1
        · rfl
        · exact absurd h' hkeep
      have hdisc := mem_discarded_of_not_keepB hp hfalse
      have hany : ((SelectTopKWith K c).any fun q => decide (q.1 = p.1)) = false := hfalse
      rw [if_neg (by simp [hany]), discarded_eq_zero_of_countNZ_le hK hdisc]
  rw [compressedCoeffs, List.map_congr_left hmap, List.enum_eq_enumFrom,
    List.enumFrom_map_snd]

/-!
## Energy bookkeeping for the Haar pipeline

`sumSq` is the squared Euclidean norm (in ℚ(√2)) used by
`WaveSketchMetrics::CalculateEuclideanDistance`; `vsub` the pointwise
difference `original[i] - reconstructed[i]` of the metric loops.  The
inverse transform is linear and an isometry for `sumSq`, so the squared
reconstruction error of the pipeline is the energy of the discarded
coefficients.
-/

/-- Pointwise difference of two equal-length series. -/
def vsub (u v : List Q2) : List Q2 := List.zipWith (· - ·) u v

/-- Sum of squares (squared Euclidean norm) of a series. -/
def sumSq (l : List Q2) : Q2 := (l.map fun x => x * x).sum

@[simp] theorem sumSq_nil : sumSq [] = 0 := rfl

@[simp] theorem sumSq_cons (x : Q2) (l : List Q2) :
    sumSq (x :: l) = x * x + sumSq l := rfl

theorem sumSq_append (l₁ l₂ : List Q2) :
    sumSq (l₁ ++ l₂) = sumSq l₁ + sumSq l₂ := by
  rw [sumSq, List.map_append, List.sum_append]; rfl

theorem toReal_sumSq_nonneg (l : List Q2) : 0 ≤ Q2.toReal (sumSq l) := by
  induction l with
  | nil => simp
  | cons x l ih =>
    rw [sumSq_cons, Q2.toReal_add, Q2.toReal_mul]
    have := mul_self_nonneg (Q2.toReal x)
    linarith

theorem sumSq_perm {l₁ l₂ : List Q2} (h : List.Perm l₁ l₂) : sumSq l₁ = sumSq l₂ :=
  List.Perm.sum_eq (h.map fun x => x * x)

theorem invStep_length : ∀ (as ds : List Q2), as.length = ds.length →
    (invStep as ds).length = 2 * as.length
  | [], [], _ => rfl
  | [], _ :: _, h => by simp at h
  | _ :: _, [], h => by simp at h
  | a :: as, d :: ds, h => by
    have : as.length = ds.length := by simpa using h
    simp only [invStep, List.length_cons, invStep_length as ds this]
    ring

theorem InverseHaarTransform_length (m : ℕ) : ∀ (c : List Q2), c.length = 2 ^ m →
    (InverseHaarTransform m c).length = 2 ^ m := by
  induction m with
  | zero => intro c h; exact h
  | succ m ih =>
    intro c h
    have htake : (c.take (2 ^ m)).length = 2 ^ m := by
      rw [List.length_take, h]
      have : (2:ℕ) ^ m ≤ 2 ^ (m + 1) := Nat.pow_le_pow_right (by norm_num) (by omega)
      omega
    have hdrop : (c.drop (2 ^ m)).length = 2 ^ m := by
      rw [List.length_drop, h, pow_succ]
      omega
    have hinv := ih (c.take (2 ^ m)) htake
    rw [InverseHaarTransform, invStep_length _ _ (by rw [hinv, hdrop]), hinv, pow_succ]
    ring

theorem invStep_vsub : ∀ (as as' ds ds' : List Q2), as.length = as'.length →
    ds.length = ds'.length →
    invStep (vsub as as') (vsub ds ds') = vsub (invStep as ds) (invStep as' ds')
  | [], [], _, _, _, _ => by simp [vsub, invStep]
  | [], _ :: _, _, _, h, _ => by simp at h
  | _ :: _, [], _, _, h, _ => by simp at h
  | a :: as, a' :: as', [], [], _, _ => by simp [vsub, invStep]
  | _ :: _, _ :: _, [], _ :: _, _, h => by simp at h
  | _ :: _, _ :: _, _ :: _, [], _, h => by simp at h
  | a :: as, a' :: as', d :: ds, d' :: ds', h, h' => by
    have h1 : as.length = as'.length := by simpa using h
    have h2 : ds.length = ds'.length := by simpa using h'
    simp only [vsub, List.zipWith_cons_cons, invStep]
    refine List.cons_eq_cons.mpr ⟨by ring, List.cons_eq_cons.mpr ⟨by ring, ?_⟩⟩
    exact invStep_vsub as as' ds ds' h1 h2

theorem vsub_length (u v : List Q2) : (vsub u v).length = min u.length v.length := by
  simp [vsub]

theorem InverseHaarTransform_vsub (m : ℕ) : ∀ (x y : List Q2), x.length = 2 ^ m →
    y.length = 2 ^ m →
    InverseHaarTransform m (vsub x y) =
      vsub (InverseHaarTransform m x) (InverseHaarTransform m y) := by
  induction m with
  | zero => intro x y _ _; rfl
  | succ m ih =>
    intro x y hx hy
    have hpow : (2:ℕ) ^ m ≤ 2 ^ (m + 1) := Nat.pow_le_pow_right (by norm_num) (by omega)
    have hxt : (x.take (2 ^ m)).length = 2 ^ m := by rw [List.length_take, hx]; omega
    have hyt : (y.take (2 ^ m)).length = 2 ^ m := by rw [List.length_take, hy]; omega
    have hxd : (x.drop (2 ^ m)).length = 2 ^ m := by
      rw [List.length_drop, hx, pow_succ]; omega
    have hyd : (y.drop (2 ^ m)).length = 2 ^ m := by
      rw [List.length_drop, hy, pow_succ]; omega
    simp only [InverseHaarTransform, vsub, List.take_zipWith, List.drop_zipWith]
    rw [show List.zipWith (· - ·) (x.take (2 ^ m)) (y.take (2 ^ m)) =
        vsub (x.take (2 ^ m)) (y.take (2 ^ m)) from rfl,
      ih _ _ hxt hyt]
    exact invStep_vsub _ _ _ _
      (by rw [InverseHaarTransform_length m _ hxt, InverseHaarTransform_length m _ hyt])
      (by rw [hxd, hyd])

theorem sumSq_invStep_pair (a d : Q2) :
    (a + d) * invSqrt2 * ((a + d) * invSqrt2) + (a - d) * invSqrt2 * ((a - d) * invSqrt2) =
      a * a + d * d := by
  linear_combination (a * a + d * d) * invSqrt2_sq

theorem sumSq_invStep : ∀ (as ds : List Q2), as.length = ds.length →
    sumSq (invStep as ds) = sumSq as + sumSq ds
  | [], [], _ => by simp [invStep]
  | [], _ :: _, h => by simp at h
  | _ :: _, [], h => by simp at h
  | a :: as, d :: ds, h => by
    have h1 : as.length = ds.length := by simpa using h
    simp only [invStep, sumSq_cons, sumSq_invStep as ds h1]
    linear_combination sumSq_invStep_pair a d

/-- The inverse transform is an isometry for the squared norm. -/
theorem sumSq_InverseHaarTransform (m : ℕ) : ∀ (c : List Q2), c.length = 2 ^ m →
    sumSq (InverseHaarTransform m c) = sumSq c := by
  induction m with
  | zero => intro c _; rfl
  | succ m ih =>
    intro c h
    have hpow : (2:ℕ) ^ m ≤ 2 ^ (m + 1) := Nat.pow_le_pow_right (by norm_num) (by omega)
    have ht : (c.take (2 ^ m)).length = 2 ^ m := by rw [List.length_take, h]; omega
    have hd : (c.drop (2 ^ m)).length = 2 ^ m := by
      rw [List.length_drop, h, pow_succ]; omega
    rw [InverseHaarTransform,
      sumSq_invStep _ _ (by rw [InverseHaarTransform_length m _ ht, hd]),
      ih _ ht]
    conv_rhs => rw [← List.take_append_drop (2 ^ m) c, sumSq_append]

theorem zipWith_map_same {α β γ δ : Type} (h : β → γ → δ) (f : α → β) (g : α → γ) :
    ∀ (l : List α), List.zipWith h (l.map f) (l.map g) = l.map fun x => h (f x) (g x)
  | [] => rfl
  | x :: l => by
    simp only [List.map_cons, List.zipWith_cons_cons, zipWith_map_same h f g l]

theorem zipWith_sub_snd_ite (B : ℕ → Bool) :
    ∀ (e : List (ℕ × Q2)),
      List.zipWith (· - ·) (e.map Prod.snd) (e.map fun p => if B p.1 then p.2 else 0) =
        e.map fun p => if B p.1 then 0 else p.2 := by
  intro e
  rw [zipWith_map_same]
  refine List.map_congr_left fun p _ => ?_
  by_cases hk : B p.1 = true
  · rw [if_pos hk, if_pos hk, sub_self]
  · rw [if_neg hk, if_neg hk, sub_zero]

/-- The coefficient-space error vector of the pipeline: discarded values
survive, retained positions cancel. -/
theorem vsub_compressedCoeffs (K : ℕ) (c : List Q2) :
    vsub c (compressedCoeffs K c) =
      c.enum.map fun p => if keepB K c p.1 then 0 else p.2 := by
  have hc : c = c.enum.map Prod.snd := by
    rw [List.enum_eq_enumFrom, List.enumFrom_map_snd]
  rw [vsub, compressedCoeffs]
  nth_rewrite 1 [hc]
  exact zipWith_sub_snd_ite (fun i => (SelectTopKWith K c).any fun q => decide (q.1 = i)) c.enum

theorem sumSq_map_ite (P : ℕ → Bool) :
    ∀ (l : List (ℕ × Q2)),
      sumSq (l.map fun p => if P p.1 then 0 else p.2) =
        sumSq ((l.filter fun p => !P p.1).map Prod.snd)
  | [] => rfl
  | p :: l => by
    by_cases hp : P p.1 = true
    · simp [List.filter_cons, hp, sumSq_map_ite P l]
    · simp [List.filter_cons, hp, sumSq_map_ite P l]

theorem filter_not_keepB_perm_discarded (K : ℕ) (c : List Q2) :
    List.Perm (c.enum.filter fun p => !keepB K c p.1) (discardedWith K c) := by
  have hperm : List.Perm (c.enum.insertionSort magGe) c.enum :=
    List.perm_insertionSort magGe c.enum
  have h1 : List.Perm (c.enum.filter fun p => !keepB K c p.1)
      ((c.enum.insertionSort magGe).filter fun p => !keepB K c p.1) :=
    (hperm.filter _).symm
  have hsplit : c.enum.insertionSort magGe =
      SelectTopKWith K c ++ discardedWith K c :=
    (List.take_append_drop K _).symm
  have htake : (SelectTopKWith K c).filter (fun p => !keepB K c p.1) = [] := by
    rw [List.filter_eq_nil_iff]
    intro p hp
    rw [keepB_of_mem_topK hp]
    simp
  have hdrop : (discardedWith K c).filter (fun p => !keepB K c p.1) =
      discardedWith K c := by
    rw [List.filter_eq_self]
    intro p hp
    rw [not_keepB_of_mem_discarded hp]
    simp
  rw [hsplit, List.filter_append, htake, hdrop] at h1
  simpa using h1

/-- Energy of the pipeline error: the squared Euclidean distance
between the coefficient vector and its top-K compression is the energy
of the discarded coefficients. -/
theorem sumSq_vsub_compressedCoeffs (K : ℕ) (c : List Q2) :
    sumSq (vsub c (compressedCoeffs K c)) =
      sumSq ((discardedWith K c).map Prod.snd) := by
  rw [vsub_compressedCoeffs, sumSq_map_ite]
  exact sumSq_perm ((filter_not_keepB_perm_discarded K c).map Prod.snd)

theorem toReal_sumSq_drop_le (j : ℕ) (l : List Q2) :
    Q2.toReal (sumSq (l.drop j)) ≤ Q2.toReal (sumSq l) := by
  conv_rhs => rw [← List.take_append_drop j l, sumSq_append, Q2.toReal_add]
  have := toReal_sumSq_nonneg (l.take j)
  linarith

/-- Monotonicity of the discarded energy in `K`. -/
theorem toReal_sumSq_discarded_mono {K₁ K₂ : ℕ} (hK : K₁ ≤ K₂) (c : List Q2) :
    Q2.toReal (sumSq ((discardedWith K₂ c).map Prod.snd)) ≤
      Q2.toReal (sumSq ((discardedWith K₁ c).map Prod.snd)) := by
  have hdd : discardedWith K₂ c = (discardedWith K₁ c).drop (K₂ - K₁) := by
    rw [discardedWith, discardedWith, List.drop_drop]
    congr 1
    omega
  rw [hdd, List.map_drop]
  exact toReal_sumSq_drop_le (K₂ - K₁) ((discardedWith K₁ c).map Prod.snd)

theorem compressedCoeffs_length (K : ℕ) (c : List Q2) :
    (compressedCoeffs K c).length = c.length := by
  simp [compressedCoeffs]

/-- Model of `WaveSketchMetrics::CalculateEuclideanDistance`: square root of the
summed squared pointwise differences (equal-length series). -/
noncomputable def CalculateEuclideanDistance (original reconstructed : List Q2) : ℝ :=
  Real.sqrt (Q2.toReal (sumSq (vsub original reconstructed)))

/-- Master error identity: the squared Euclidean reconstruction error
of the pipeline equals the energy of the coefficients the top-K
selection discarded. -/
theorem sumSq_pipeline_error (m K : ℕ) (v : List Q2) (h : v.length = 2 ^ m) :
    sumSq (vsub v (rebuildPipeline m K v)) =
      sumSq ((discardedWith K (HaarTransform m v)).map Prod.snd) := by
  have hc : (HaarTransform m v).length = 2 ^ m := HaarTransform_length m v h
  have hcomp : (compressedCoeffs K (HaarTransform m v)).length = 2 ^ m := by
    rw [compressedCoeffs_length, hc]
  have h1 : vsub v (rebuildPipeline m K v) =
      InverseHaarTransform m
        (vsub (HaarTransform m v) (compressedCoeffs K (HaarTransform m v))) := by
    rw [rebuildPipeline]
    nth_rewrite 1 [← InverseHaarTransform_HaarTransform m v h]
    rw [← InverseHaarTransform_vsub m _ _ hc hcomp]
  rw [h1, sumSq_InverseHaarTransform m _ (by rw [vsub_length, hc, hcomp]; simp),
    sumSq_vsub_compressedCoeffs]

/-- Monotonicity of the Euclidean reconstruction error in `K`. -/
theorem euclidean_error_mono (m K₁ K₂ : ℕ) (v : List Q2) (h : v.length = 2 ^ m)
    (hK : K₁ ≤ K₂) :
    CalculateEuclideanDistance v (rebuildPipeline m K₂ v) ≤
      CalculateEuclideanDistance v (rebuildPipeline m K₁ v) := by
  rw [CalculateEuclideanDistance, CalculateEuclideanDistance,
    sumSq_pipeline_error m K₁ v h, sumSq_pipeline_error m K₂ v h]
  exact Real.sqrt_le_sqrt (toReal_sumSq_discarded_mono hK (HaarTransform m v))

end WaveSketchAgent

namespace Q2

/-- Field inverse in ℚ(√2): `(a + b√2)⁻¹ = (a - b√2) / (a² - 2b²)`
(junk value `0` at `0`, as division by zero is junk in the C++ metrics
too — every division in the modelled code is guarded). -/
def inv (x : Q2) : Q2 := ⟨x.a / (x.a ^ 2 - 2 * x.b ^ 2), -x.b / (x.a ^ 2 - 2 * x.b ^ 2)⟩

instance : Div Q2 := ⟨fun x y => x * inv y⟩

theorem div_def (x y : Q2) : x / y = x * inv y := rfl

theorem denom_ne_zero {x : Q2} (hx : x ≠ 0) : x.a ^ 2 - 2 * x.b ^ 2 ≠ 0 := by
  intro h
  by_cases hb : x.b = 0
  · apply hx
    have ha : x.a ^ 2 = 0 := by rw [hb] at h; linarith [sq_nonneg x.a]
    exact Q2.ext (by simpa using pow_eq_zero_iff (n := 2) (by norm_num) |>.mp ha) hb
  · have hq : (x.a / x.b) ^ 2 = 2 := by
      field_simp
      linarith
    have hq' : ((x.a / x.b : ℚ) : ℝ) ^ 2 = 2 := by exact_mod_cast hq
    have : Real.sqrt 2 = |((x.a / x.b : ℚ) : ℝ)| := by
      rw [← hq', Real.sqrt_sq_eq_abs]
    exact irrational_sqrt_two ⟨|x.a / x.b|, by rw [this]; push_cast; rfl⟩

theorem toReal_inv (x : Q2) (hx : x ≠ 0) : toReal (inv x) = (toReal x)⁻¹ := by
  have hden : x.a ^ 2 - 2 * x.b ^ 2 ≠ 0 := denom_ne_zero hx
  have hx' : toReal x ≠ 0 := fun h => hx (toReal_eq_zero.mp h)
  refine eq_inv_of_mul_eq_one_left ?_
  have hs : Real.sqrt 2 * Real.sqrt 2 = 2 := Real.mul_self_sqrt (by norm_num)
  rw [toReal, toReal, inv]
  have hden' : ((x.a : ℝ)) ^ 2 - 2 * (x.b : ℝ) ^ 2 ≠ 0 := by
    intro hc
    apply hden
    have : ((x.a ^ 2 - 2 * x.b ^ 2 : ℚ) : ℝ) = 0 := by push_cast; linarith
    exact_mod_cast this
  push_cast
  field_simp
  nlinarith [hs]

theorem toReal_div (x y : Q2) (hy : y ≠ 0) :
    toReal (x / y) = toReal x / toReal y := by
  rw [div_def, toReal_mul, toReal_inv y hy, div_eq_mul_inv]

end Q2

/-!
## Accuracy metrics

`CalculateARE` models `WaveSketchMetrics::CalculateARE` of
src/fattree_ecn_clean.cc (identically `ARE` in src/offline_evaluator.cpp
and src/fattree_benchmark.cc): a single left-to-right pass accumulating
`|original[i] - reconstructed[i]| / original[i]` over the indices whose
original value exceeds `1e-9`, returning `0` when no index qualifies and
the accumulated sum divided by the count otherwise.

`CalculateCosineSimilarity` models
`WaveSketchMetrics::CalculateCosineSimilarity` (identically `Cosine` in
src/offline_evaluator.cpp): dot product over the common indices, norms,
and the guard `magA < 1e-9 || magB < 1e-9` returning `1.0`.
-/

namespace WaveSketchMetrics

/-- The `1e-9` threshold of the metric guards, as an exact rational. -/
def threshold : Q2 := Q2.ofRat (1 / 1000000000)

/-- One iteration of the `CalculateARE` loop: accumulate
`|original[i] - reconstructed[i]| / original[i]` and bump the non-zero
counter whenever `original[i] > 1e-9`. -/
def areStep (acc : Q2 × ℕ) (pr : Q2 × Q2) : Q2 × ℕ :=
  if Q2.ltB threshold pr.1 then
    (acc.1 + Q2.absQ (pr.1 - pr.2) / pr.1, acc.2 + 1)
  else acc

/-- Model of `WaveSketchMetrics::CalculateARE` on equal-length series. -/
def CalculateARE (original reconstructed : List Q2) : Q2 :=
  let p := (original.zip reconstructed).foldl areStep (0, 0)
  if p.2 = 0 then 0 else p.1 / Q2.ofRat (p.2 : ℚ)

/-- Model of `WaveSketchMetrics::CalculateCosineSimilarity` on equal-length
series (the loop reads both vectors at the indices of the first). -/
noncomputable def CalculateCosineSimilarity (original reconstructed : List Q2) : ℝ :=
  let dot := Q2.toReal ((List.zipWith (· * ·) original reconstructed).sum)
  let magA := Real.sqrt (Q2.toReal (WaveSketchAgent.sumSq original))
  let magB := Real.sqrt (Q2.toReal (WaveSketchAgent.sumSq reconstructed))
  if magA < 1e-9 ∨ magB < 1e-9 then 1 else dot / (magA * magB)

theorem toReal_threshold : Q2.toReal threshold = 1e-9 := by
  rw [threshold, Q2.toReal_ofRat]
  norm_num

/-- Elements failing the `> 1e-9` guard do not move the accumulator. -/
theorem foldl_areStep_skip (l : List (Q2 × Q2)) (acc : Q2 × ℕ)
    (h : ∀ pr ∈ l, Q2.ltB threshold pr.1 = false) :
    l.foldl areStep acc = acc := by
  induction l generalizing acc with
  | nil => rfl
  | cons pr l ih =>
    rw [List.foldl_cons, areStep, if_neg (by simp [h pr (by simp)]),
      ih acc fun q hq => h q (by simp [hq])]

/-- The ARE accumulator only sees the threshold-passing pairs: skipped
pairs can be filtered away without changing the fold. -/
theorem foldl_areStep_filter (l : List (Q2 × Q2)) (acc : Q2 × ℕ) :
    l.foldl areStep acc =
      (l.filter fun pr => Q2.ltB threshold pr.1).foldl areStep acc := by
  induction l generalizing acc with
  | nil => rfl
  | cons pr l ih =>
    rw [List.foldl_cons, List.filter_cons]
    by_cases hpr : Q2.ltB threshold pr.1 = true
    · rw [if_pos hpr, List.foldl_cons, ih]
    · have hpr' : Q2.ltB threshold pr.1 = false := by
        cases h' : Q2.ltB threshold pr.1
        · rfl
        · exact absurd h' hpr
      rw [hpr', if_neg (by simp), areStep, if_neg (by simp [hpr']), ih]

end WaveSketchMetrics

/-!
## Memory-budget arithmetic of src/Utility/parameter.h

`FULL_DEPTH` is derived from the configured `MEMORY_KB` by integer
division, `MEMORY` recombines the table dimensions into a byte count.
-/

namespace Parameter

/-- The macro `MEMORY_KB = 256`, the configured memory budget in KB. -/
def MEMORY_KB : ℕ := 256

/-- The macro `FULL_WIDTH = 256`. -/
def FULL_WIDTH : ℕ := 256

/-- The macro `FULL_HEIGHT = 3`. -/
def FULL_HEIGHT : ℕ := 3

/-- The macro `FULL_DEPTH = (MEMORY_KB * 1024) / (FULL_WIDTH * FULL_HEIGHT * 4)`,
with the configured budget as a parameter (integer division). -/
def FULL_DEPTH_of (kb : ℕ) : ℕ := (kb * 1024) / (FULL_WIDTH * FULL_HEIGHT * 4)

/-- The macro `MEMORY = FULL_WIDTH * FULL_HEIGHT * FULL_DEPTH * 4`, the
table footprint in bytes, as a function of the configured budget. -/
def MEMORY_of (kb : ℕ) : ℕ := FULL_WIDTH * FULL_HEIGHT * FULL_DEPTH_of kb * 4

/-- The constants as the header fixes them (`MEMORY_KB = 256`). -/
def FULL_DEPTH : ℕ := FULL_DEPTH_of MEMORY_KB

/-- The byte footprint `MEMORY` at the configured `MEMORY_KB = 256`. -/
def MEMORY : ℕ := MEMORY_of MEMORY_KB

end Parameter

/-!
## Reconstruction driver of src/offline_evaluator.cpp

For each flow the driver allocates `vector<double> rec(numWindows, 0.0)`,
looks the flow up in the `STREAM` map returned by `rebuild()` and, only
when found, adds each reconstructed sample whose window falls inside
`[start, end]` into the vector.  Flow keys are modelled as naturals,
the map as an association list.
-/

namespace OfflineEvaluator

/-- One driver entry `rec[win - start] += p.second` guarded by
`win >= start && win <= end` with `win = p.first / windowUs`. -/
def addSample (windowUs start endW : ℕ) (rec : List ℚ) (p : ℕ × ℚ) : List ℚ :=
  let win := p.1 / windowUs
  if start ≤ win ∧ win ≤ endW then
    rec.set (win - start) (rec.getD (win - start) 0 + p.2)
  else rec

/-- The per-flow reconstruction vector of src/offline_evaluator.cpp
lines 277–287: all-zero initialisation, filled only when the flow is
present in the `rebuild()` output. -/
def fillReconstruction (reconstructed : List (ℕ × List (ℕ × ℚ)))
    (flowId windowUs start endW numWindows : ℕ) : List ℚ :=
  let rec0 := List.replicate numWindows (0 : ℚ)
  match reconstructed.lookup flowId with
  | none => rec0
  | some series => series.foldl (addSample windowUs start endW) rec0

end OfflineEvaluator

/-!
## CSV clamp of src/fattree_k4_replay.cc (`FlowRateLogger::WriteCsv`)
-/

namespace FlowRateLogger

/-- The constant `kWaveletScale = 1000` of `FlowRateLogger`. -/
def kWaveletScale : ℚ := 1000

/-- The reported value `reconstructedBytes = max(0.0, reconstructedValues[i] * kWaveletScale)`. -/
def reconstructedBytes (value : ℚ) : ℚ := max 0 (value * kWaveletScale)

end FlowRateLogger

/-!
## Scheme-level model for `flush` (spec §4.1)

The scheme implementation (`Wavelet/wavelet.h` and its siblings) is not
part of the source tree — only its callers are — so the `flush`/`rebuild`
contract is modelled from the specification text.
-/

namespace SchemeModel

/-- Modelled from the spec: the missing per-flow bucket state of a
scheme (`Wavelet/wavelet.h` is absent from src/).  Spec §3/§4.2: a list
of already-closed `(window index, count)` pairs plus the currently-open
window's index and accumulator. -/
structure Bucket where
  closedWindows : List (ℕ × ℚ)
  openWindow : Option (ℕ × ℚ)

/-- Modelled from the spec: the scheme state, one bucket per flow key
(unknown flows hold the empty bucket). -/
def State := ℕ → Bucket

/-- Modelled from the spec: closing a bucket's open window, "as if now
were a boundary", appending the partial window to the closed series. -/
def flushBucket (b : Bucket) : Bucket :=
  match b.openWindow with
  | none => b
  | some wc => ⟨b.closedWindows ++ [wc], none⟩

/-- Modelled from the spec: `flush()` forces closure of every flow's
currently-open window (spec §4.1). -/
def flush (st : State) : State := fun flow => flushBucket (st flow)

/-- Modelled from the spec: `count(flow, t, v)` accumulates into the open
window on the fast path, and closes it before opening the event's window
on the slow path (spec §4.1/§4.2 "Counting"). -/
def count (windowSize : ℕ) (st : State) (flow t : ℕ) (v : ℚ) : State := fun f =>
  if f = flow then
    let b := st flow
    let idx := t / windowSize
    match b.openWindow with
    | none => ⟨b.closedWindows, some (idx, v)⟩
    | some (i, c) =>
      if i = idx then ⟨b.closedWindows, some (i, c + v)⟩
      else ⟨b.closedWindows ++ [(i, c)], some (idx, v)⟩
  else st f

/-- Modelled from the spec: `rebuild()` first applies `flush()`-equivalent
finalisation, then reports the flow's ordered `(timestamp, value)`
series (spec §4.1/§4.2 "rebuild"). -/
def rebuild (windowSize : ℕ) (st : State) (flow : ℕ) : List (ℕ × ℚ) :=
  (flushBucket (st flow)).closedWindows.map fun wc => (wc.1 * windowSize, wc.2)

theorem flushBucket_flushBucket (b : Bucket) :
    flushBucket (flushBucket b) = flushBucket b := by
  cases b with
  | mk closed opened =>
    cases opened with
    | none => rfl
    | some wc => rfl

end SchemeModel

/-!
## Claims

Each claim of the specification is settled by exactly one theorem below
(with a separate counterexample theorem where the claim as stated fails,
and a witness theorem where a proved theorem carries hypotheses).
-/

open WaveSketchAgent WaveSketchMetrics

/-- C2 (amended): the forward and inverse Haar steps are exact inverses —
for every vector whose length is a power of two, `InverseHaarTransform`
applied to the full output of `HaarTransform` returns the input; and for
any curve with at most `K` non-zero Haar coefficients (the approximation
coefficient included — the original claim counted only detail
coefficients, which the counterexample refutes), the rebuild pipeline
reproduces the curve exactly. -/
theorem C2_haar_roundtrip :
    (∀ (m : ℕ) (v : List Q2), v.length = 2 ^ m →
      InverseHaarTransform m (HaarTransform m v) = v) ∧
    (∀ (m K : ℕ) (v : List Q2), v.length = 2 ^ m →
      countNZ (HaarTransform m v) ≤ K → rebuildPipeline m K v = v) := by
  constructor
  · exact InverseHaarTransform_HaarTransform
  · intro m K v h hK
    rw [rebuildPipeline, compressedCoeffs_of_countNZ_le hK,
      InverseHaarTransform_HaarTransform m v h]

/-- Witness for C2: the round trip at the concrete vector `[1, 2, 3, 4]`
(two levels), and the full pipeline with `K = 1` on the constant curve
`[1, 1, 1, 1]`, whose single non-zero coefficient survives selection. -/
theorem C2_haar_roundtrip_witness :
    InverseHaarTransform 2 (HaarTransform 2
        [Q2.ofRat 1, Q2.ofRat 2, Q2.ofRat 3, Q2.ofRat 4]) =
      [Q2.ofRat 1, Q2.ofRat 2, Q2.ofRat 3, Q2.ofRat 4] ∧
    rebuildPipeline 2 1 [Q2.ofRat 1, Q2.ofRat 1, Q2.ofRat 1, Q2.ofRat 1] =
      [Q2.ofRat 1, Q2.ofRat 1, Q2.ofRat 1, Q2.ofRat 1] := by
  constructor
  · exact C2_haar_roundtrip.1 2 _ (by norm_num)
  · refine C2_haar_roundtrip.2 2 1 _ (by norm_num) ?_
    norm_num [HaarTransform, pairAvg, pairDiff, invSqrt2, countNZ, Q2.ofRat, Q2.ext_iff]

/-- C3 (amended): the derived table footprint
`MEMORY = FULL_WIDTH * FULL_HEIGHT * FULL_DEPTH * 4` never exceeds the
configured budget `MEMORY_KB * 1024`, and equals it exactly when the
width/height product divides the budget (here: when `3 ∣ MEMORY_KB`);
at the configured `MEMORY_KB = 256` the footprint is `261120`, strictly
below the `262144`-byte budget — the original exact-equality claim fails
by the integer division. -/
theorem C3_memory_budget :
    (∀ kb : ℕ, Parameter.MEMORY_of kb ≤ kb * 1024) ∧
    (∀ kb : ℕ, 3 ∣ kb → Parameter.MEMORY_of kb = kb * 1024) ∧
    Parameter.MEMORY = 261120 := by
  refine ⟨fun kb => ?_, fun kb hkb => ?_, by decide⟩
  · show 256 * 3 * ((kb * 1024) / (256 * 3 * 4)) * 4 ≤ kb * 1024
    calc 256 * 3 * ((kb * 1024) / (256 * 3 * 4)) * 4
        = (kb * 1024) / 3072 * 3072 := by ring_nf
      _ ≤ kb * 1024 := Nat.div_mul_le_self _ _
  · show 256 * 3 * ((kb * 1024) / (256 * 3 * 4)) * 4 = kb * 1024
    obtain ⟨j, rfl⟩ := hkb
    calc 256 * 3 * ((3 * j * 1024) / (256 * 3 * 4)) * 4
        = (j * 3072) / 3072 * 3072 := by ring_nf
      _ = j * 3072 := by rw [Nat.mul_div_cancel _ (by norm_num)]
      _ = 3 * j * 1024 := by ring

/-- Witness for C3: at `kb = 6` (divisible by 3) the footprint meets the
budget exactly, and the bound holds at the configured 256 KB. -/
theorem C3_memory_budget_witness :
    Parameter.MEMORY_of 6 = 6 * 1024 ∧
    Parameter.MEMORY_of Parameter.MEMORY_KB ≤ Parameter.MEMORY_KB * 1024 :=
  ⟨C3_memory_budget.2.1 6 (by norm_num), C3_memory_budget.1 Parameter.MEMORY_KB⟩

/-- C4: `SelectTopK` returns exactly `min(K, number of coefficients)`
records (clamping, never failing), and every retained record's weighted
magnitude is at least every discarded coefficient's magnitude — so a
smaller-or-equal magnitude never displaces a retained (stored) one. -/
theorem C4_topk_invariants (K : ℕ) (c : List Q2) :
    (SelectTopKWith K c).length = min K c.length ∧
    (∀ p ∈ SelectTopKWith K c, ∀ q ∈ discardedWith K c,
      |Q2.toReal q.2| ≤ |Q2.toReal p.2|) :=
  ⟨selectTopKWith_length K c, fun _ hp _ hq => abs_toReal_discarded_le hp hq⟩

/-- Witness for C4: with `K = 1` on `[3, 1]` the selection keeps one
record `(0, 3)` and discards `(1, 1)`, whose magnitude it dominates. -/
theorem C4_topk_invariants_witness :
    (SelectTopKWith 1 [Q2.ofRat 3, Q2.ofRat 1]).length =
      min 1 [Q2.ofRat 3, Q2.ofRat 1].length ∧
    |Q2.toReal (Q2.ofRat 1)| ≤ |Q2.toReal (Q2.ofRat 3)| := by
  constructor
  · exact (C4_topk_invariants 1 [Q2.ofRat 3, Q2.ofRat 1]).1
  · refine (C4_topk_invariants 1 [Q2.ofRat 3, Q2.ofRat 1]).2
      (0, Q2.ofRat 3) ?_ (1, Q2.ofRat 1) ?_ <;>
      norm_num [SelectTopKWith, discardedWith, List.enum, List.enumFrom,
        List.insertionSort, List.orderedInsert, magGe, Q2.leB, Q2.nonnegB, Q2.absQ,
        Q2.ofRat, Q2.ext_iff]

/-- C6: a flow absent from the `rebuild()` output leaves the driver's
reconstruction vector at its all-zero initialisation — a normal result,
not an error. -/
theorem C6_unknown_flow_zero (reconstructed : List (ℕ × List (ℕ × ℚ)))
    (flowId windowUs start endW numWindows : ℕ)
    (h : reconstructed.lookup flowId = none) :
    OfflineEvaluator.fillReconstruction reconstructed flowId windowUs start endW
      numWindows = List.replicate numWindows 0 := by
  rw [OfflineEvaluator.fillReconstruction, h]

/-- Witness for C6: flow `2` is absent from a map holding only flow `1`,
so its three-window reconstruction is `[0, 0, 0]`. -/
theorem C6_unknown_flow_zero_witness :
    OfflineEvaluator.fillReconstruction [(1, [(0, (5:ℚ))])] 2 1000 0 2 3 =
      List.replicate 3 0 :=
  C6_unknown_flow_zero [(1, [(0, (5:ℚ))])] 2 1000 0 2 3 (by rfl)

/-- C7 (spec-modelled): `flush()` is idempotent — a second `flush()` with
no intervening `count()` changes nothing, and `rebuild()` after two
consecutive flushes equals `rebuild()` after one. -/
theorem C7_flush_idempotent (st : SchemeModel.State) (windowSize : ℕ) :
    SchemeModel.flush (SchemeModel.flush st) = SchemeModel.flush st ∧
    (∀ flow, SchemeModel.rebuild windowSize (SchemeModel.flush (SchemeModel.flush st)) flow =
      SchemeModel.rebuild windowSize (SchemeModel.flush st) flow) := by
  have hfix : SchemeModel.flush (SchemeModel.flush st) = SchemeModel.flush st :=
    funext fun flow => SchemeModel.flushBucket_flushBucket (st flow)
  exact ⟨hfix, fun flow => by rw [hfix]⟩

/-- C8: the reported reconstructed byte count is
`max(0, value * kWaveletScale)`: never negative, zero whenever the
scaled reconstruction is negative, and the scaled value itself
otherwise. -/
theorem C8_negative_clamp (value : ℚ) :
    0 ≤ FlowRateLogger.reconstructedBytes value ∧
    (value * FlowRateLogger.kWaveletScale < 0 →
      FlowRateLogger.reconstructedBytes value = 0) ∧
    (0 ≤ value * FlowRateLogger.kWaveletScale →
      FlowRateLogger.reconstructedBytes value =
        value * FlowRateLogger.kWaveletScale) := by
  refine ⟨le_max_left 0 _, fun h => ?_, fun h => ?_⟩
  · rw [FlowRateLogger.reconstructedBytes, max_eq_left h.le]
  · rw [FlowRateLogger.reconstructedBytes, max_eq_right h]

/-- Witness for C8: the negative sample `-3/2` is clamped to `0`, the
non-negative sample `2` is reported as `2 * 1000`. -/
theorem C8_negative_clamp_witness :
    FlowRateLogger.reconstructedBytes (-3/2) = 0 ∧
    FlowRateLogger.reconstructedBytes 2 = 2 * FlowRateLogger.kWaveletScale :=
  ⟨(C8_negative_clamp (-3/2)).2.1 (by norm_num [FlowRateLogger.kWaveletScale]),
   (C8_negative_clamp 2).2.2 (by norm_num [FlowRateLogger.kWaveletScale])⟩

/-- C9: for equal-length vectors the cosine-similarity metric returns
exactly `1.0` whenever either vector's Euclidean norm is below `1e-9` —
including when only one of the two is (near-)zero — and the standard
dot-product cosine otherwise. -/
theorem C9_cosine_guard (original reconstructed : List Q2)
    (_hlen : original.length = reconstructed.length) :
    (Real.sqrt (Q2.toReal (sumSq original)) < 1e-9 ∨
        Real.sqrt (Q2.toReal (sumSq reconstructed)) < 1e-9 →
      CalculateCosineSimilarity original reconstructed = 1) ∧
    (¬(Real.sqrt (Q2.toReal (sumSq original)) < 1e-9 ∨
        Real.sqrt (Q2.toReal (sumSq reconstructed)) < 1e-9) →
      CalculateCosineSimilarity original reconstructed =
        Q2.toReal ((List.zipWith (· * ·) original reconstructed).sum) /
          (Real.sqrt (Q2.toReal (sumSq original)) *
            Real.sqrt (Q2.toReal (sumSq reconstructed)))) := by
  constructor
  · intro h
    rw [CalculateCosineSimilarity, if_pos h]
  · intro h
    rw [CalculateCosineSimilarity, if_neg h]

/-- Witness for C9: the all-zero series against the non-zero series
`[3, 4]` (norm 5) scores cosine similarity exactly `1`. -/
theorem C9_cosine_guard_witness :
    CalculateCosineSimilarity [0, 0] [Q2.ofRat 3, Q2.ofRat 4] = 1 := by
  refine (C9_cosine_guard [0, 0] [Q2.ofRat 3, Q2.ofRat 4] rfl).1 (Or.inl ?_)
  have : sumSq ([0, 0] : List Q2) = 0 := by norm_num [sumSq]
  rw [this, Q2.toReal_zero, Real.sqrt_zero]
  norm_num

/-- C10: the ARE metric accumulates only over the points whose original
value exceeds `1e-9` (filtering the remaining pairs away changes
nothing), and on an original curve with no point above `1e-9` it
returns exactly `0` regardless of the reconstruction. -/
theorem C10_are_guard :
    (∀ original reconstructed : List Q2,
      (original.zip reconstructed).foldl areStep (0, 0) =
        ((original.zip reconstructed).filter fun pr =>
          Q2.ltB threshold pr.1).foldl areStep (0, 0)) ∧
    (∀ original reconstructed : List Q2,
      (∀ o ∈ original, Q2.toReal o ≤ 1e-9) →
      CalculateARE original reconstructed = 0) := by
  constructor
  · intro original reconstructed
    exact foldl_areStep_filter _ _
  · intro original reconstructed h
    have hall : ∀ pr ∈ original.zip reconstructed,
        Q2.ltB threshold pr.1 = false := by
      intro pr hpr
      obtain ⟨o, r⟩ := pr
      have ho : o ∈ original := (List.of_mem_zip hpr).1
      cases hlt : Q2.ltB threshold o
      · rfl
      · exfalso
        have := Q2.ltB_iff.mp hlt
        rw [toReal_threshold] at this
        exact absurd (h o ho) (not_le.mpr this)
    rw [CalculateARE]
    simp only [foldl_areStep_skip _ _ hall]
    rfl

/-- Witness for C10: the all-zero original `[0, 0]` scores ARE `0`
against the non-zero reconstruction `[5, 7]`. -/
theorem C10_are_guard_witness :
    CalculateARE [0, 0] [Q2.ofRat 5, Q2.ofRat 7] = 0 := by
  refine C10_are_guard.2 [0, 0] [Q2.ofRat 5, Q2.ofRat 7] ?_
  intro o ho
  have ho' : o = 0 := by
    rcases List.mem_cons.mp ho with h | h
    · exact h
    · rcases List.mem_cons.mp h with h' | h'
      · exact h'
      · cases h'
  rw [ho', Q2.toReal_zero]
  norm_num

/-- C1 (counterexample): the concrete scenario fails — the input
`[0,0,5,0,0,0,5,0]` (8 windows, L = 3, K = 4) does *not* reconstruct to
itself through the pipeline.  Its Haar transform has five non-zero
coefficients (three of magnitude `5/√2` and two tied at `5/2`), so the
top-4 selection must drop one: under the stable tie-break the pipeline
returns `[0,0,5,0,5/4,5/4,15/4,-5/4]`, and zeroing the other tied
coefficient instead (the only other outcome `std::sort` permits) fails
as well. -/
theorem C1_concrete_counterexample :
    rebuildPipeline 3 MAX_K_COEFFICIENTS
        [0, 0, Q2.ofRat 5, 0, 0, 0, Q2.ofRat 5, 0] ≠
      [0, 0, Q2.ofRat 5, 0, 0, 0, Q2.ofRat 5, 0] ∧
    InverseHaarTransform 3
        [⟨0, 5/2⟩, 0, 0, ⟨-5/2, 0⟩, 0, ⟨0, 5/2⟩, 0, ⟨0, 5/2⟩] ≠
      [0, 0, Q2.ofRat 5, 0, 0, 0, Q2.ofRat 5, 0] := by
  constructor
  · have hval : rebuildPipeline 3 MAX_K_COEFFICIENTS
        [0, 0, Q2.ofRat 5, 0, 0, 0, Q2.ofRat 5, 0] =
        [0, 0, Q2.ofRat 5, 0, Q2.ofRat (5/4), Q2.ofRat (5/4),
          Q2.ofRat (15/4), Q2.ofRat (-5/4)] := by
      norm_num [rebuildPipeline, compressedCoeffs, SelectTopKWith, MAX_K_COEFFICIENTS,
        HaarTransform, InverseHaarTransform, pairAvg, pairDiff, invStep, invSqrt2,
        List.enum, List.enumFrom, List.insertionSort, List.orderedInsert,
        magGe, Q2.leB, Q2.nonnegB, Q2.absQ, Q2.ofRat, Q2.ext_iff]
    rw [hval]
    intro hcontra
    have := List.cons_eq_cons.mp hcontra
    have h2 := List.cons_eq_cons.mp this.2
    have h3 := List.cons_eq_cons.mp h2.2
    have h4 := List.cons_eq_cons.mp h3.2
    have h5 := List.cons_eq_cons.mp h4.2
    have : Q2.ofRat (5/4) = 0 := h5.1
    rw [Q2.ext_iff] at this
    norm_num [Q2.ofRat] at this
  · have hval : InverseHaarTransform 3
        [⟨0, 5/2⟩, 0, 0, ⟨-5/2, 0⟩, 0, ⟨0, 5/2⟩, 0, ⟨0, 5/2⟩] =
        [Q2.ofRat (5/4), Q2.ofRat (5/4), Q2.ofRat (15/4), Q2.ofRat (-5/4),
          0, 0, Q2.ofRat 5, 0] := by
      norm_num [InverseHaarTransform, invStep, invSqrt2, Q2.ofRat, Q2.ext_iff]
    rw [hval]
    intro hcontra
    have := List.cons_eq_cons.mp hcontra
    have : Q2.ofRat (5/4) = 0 := this.1
    rw [Q2.ext_iff] at this
    norm_num [Q2.ofRat] at this

/-- C1 (amended): the Haar transform of `[0,0,5,0,0,0,5,0]` has five
non-zero coefficients, so `K = 4` cannot retain them all; raising the
retained count to `K = 5` makes the pipeline reconstruct
`[0,0,5,0,0,0,5,0]` exactly. -/
theorem C1_concrete_amended :
    countNZ (HaarTransform 3 [0, 0, Q2.ofRat 5, 0, 0, 0, Q2.ofRat 5, 0]) = 5 ∧
    rebuildPipeline 3 5 [0, 0, Q2.ofRat 5, 0, 0, 0, Q2.ofRat 5, 0] =
      [0, 0, Q2.ofRat 5, 0, 0, 0, Q2.ofRat 5, 0] := by
  constructor
  · norm_num [countNZ, HaarTransform, pairAvg, pairDiff, invSqrt2,
      Q2.ofRat, Q2.ext_iff, List.filter]
  · norm_num [rebuildPipeline, compressedCoeffs, SelectTopKWith,
      HaarTransform, InverseHaarTransform, pairAvg, pairDiff, invStep, invSqrt2,
      List.enum, List.enumFrom, List.insertionSort, List.orderedInsert,
      magGe, Q2.leB, Q2.nonnegB, Q2.absQ, Q2.ofRat, Q2.ext_iff]

/-- C2 (counterexample): the "number of non-zero *detail* coefficients
at most K" form of the round-trip property is false: the curve
`[0,0,5,0,0,0,5,0]` has exactly four non-zero detail coefficients
(within budget `K = 4`), yet the rebuild pipeline does not reproduce it
— the non-zero approximation coefficient competes for the same K slots. -/
theorem C2_detail_count_counterexample :
    countNZ ((HaarTransform 3 [0, 0, Q2.ofRat 5, 0, 0, 0, Q2.ofRat 5, 0]).drop 1) =
      MAX_K_COEFFICIENTS ∧
    rebuildPipeline 3 MAX_K_COEFFICIENTS
        [0, 0, Q2.ofRat 5, 0, 0, 0, Q2.ofRat 5, 0] ≠
      [0, 0, Q2.ofRat 5, 0, 0, 0, Q2.ofRat 5, 0] := by
  constructor
  · norm_num [countNZ, MAX_K_COEFFICIENTS, HaarTransform, pairAvg, pairDiff,
      invSqrt2, Q2.ofRat, Q2.ext_iff, List.filter]
  · have hval : rebuildPipeline 3 MAX_K_COEFFICIENTS
        [0, 0, Q2.ofRat 5, 0, 0, 0, Q2.ofRat 5, 0] =
        [0, 0, Q2.ofRat 5, 0, Q2.ofRat (5/4), Q2.ofRat (5/4),
          Q2.ofRat (15/4), Q2.ofRat (-5/4)] := by
      norm_num [rebuildPipeline, compressedCoeffs, SelectTopKWith, MAX_K_COEFFICIENTS,
        HaarTransform, InverseHaarTransform, pairAvg, pairDiff, invStep, invSqrt2,
        List.enum, List.enumFrom, List.insertionSort, List.orderedInsert,
        magGe, Q2.leB, Q2.nonnegB, Q2.absQ, Q2.ofRat, Q2.ext_iff]
    rw [hval]
    intro hcontra
    have := List.cons_eq_cons.mp hcontra
    have h2 := List.cons_eq_cons.mp this.2
    have h3 := List.cons_eq_cons.mp h2.2
    have h4 := List.cons_eq_cons.mp h3.2
    have h5 := List.cons_eq_cons.mp h4.2
    have : Q2.ofRat (5/4) = 0 := h5.1
    rw [Q2.ext_iff] at this
    norm_num [Q2.ofRat] at this

/-- C5 (counterexample): increasing K can *increase* the Average
Relative Error.  On the curve `[0,1,0,3]` the pipeline with `K = 2`
reconstructs `[1,1,-1/2,5/2]` (ARE `1/12`), while with `K = 3` it
reconstructs `[1/2,1/2,0,3]` (ARE `1/4`): the added coefficient moves
absolute error onto the point with the small original value, and ARE
weights that point by `1/original`.  All four coefficient magnitudes of
this curve are distinct, so no `std::sort` tie-break is involved. -/
theorem C5_are_not_monotone :
    2 ≤ 3 ∧
    Q2.toReal (CalculateARE [0, Q2.ofRat 1, 0, Q2.ofRat 3]
        (rebuildPipeline 2 2 [0, Q2.ofRat 1, 0, Q2.ofRat 3])) <
      Q2.toReal (CalculateARE [0, Q2.ofRat 1, 0, Q2.ofRat 3]
        (rebuildPipeline 2 3 [0, Q2.ofRat 1, 0, Q2.ofRat 3])) := by
  refine ⟨by norm_num, ?_⟩
  have h2 : rebuildPipeline 2 2 [0, Q2.ofRat 1, 0, Q2.ofRat 3] =
      [Q2.ofRat 1, Q2.ofRat 1, Q2.ofRat (-1/2), Q2.ofRat (5/2)] := by
    norm_num [rebuildPipeline, compressedCoeffs, SelectTopKWith,
      HaarTransform, InverseHaarTransform, pairAvg, pairDiff, invStep, invSqrt2,
      List.enum, List.enumFrom, List.insertionSort, List.orderedInsert,
      magGe, Q2.leB, Q2.nonnegB, Q2.absQ, Q2.ofRat, Q2.ext_iff]
  have h3 : rebuildPipeline 2 3 [0, Q2.ofRat 1, 0, Q2.ofRat 3] =
      [Q2.ofRat (1/2), Q2.ofRat (1/2), 0, Q2.ofRat 3] := by
    norm_num [rebuildPipeline, compressedCoeffs, SelectTopKWith,
      HaarTransform, InverseHaarTransform, pairAvg, pairDiff, invStep, invSqrt2,
      List.enum, List.enumFrom, List.insertionSort, List.orderedInsert,
      magGe, Q2.leB, Q2.nonnegB, Q2.absQ, Q2.ofRat, Q2.ext_iff]
  have ha2 : CalculateARE [0, Q2.ofRat 1, 0, Q2.ofRat 3]
      [Q2.ofRat 1, Q2.ofRat 1, Q2.ofRat (-1/2), Q2.ofRat (5/2)] = Q2.ofRat (1/12) := by
    norm_num [CalculateARE, areStep, threshold, Q2.ltB, Q2.leB, Q2.nonnegB, Q2.absQ,
      Q2.div_def, Q2.inv, Q2.ofRat, Q2.ext_iff, List.foldl]
  have ha3 : CalculateARE [0, Q2.ofRat 1, 0, Q2.ofRat 3]
      [Q2.ofRat (1/2), Q2.ofRat (1/2), 0, Q2.ofRat 3] = Q2.ofRat (1/4) := by
    norm_num [CalculateARE, areStep, threshold, Q2.ltB, Q2.leB, Q2.nonnegB, Q2.absQ,
      Q2.div_def, Q2.inv, Q2.ofRat, Q2.ext_iff, List.foldl]
  rw [h2, h3, ha2, ha3, Q2.toReal_ofRat, Q2.toReal_ofRat]
  norm_num

/-- C5 (amended): increasing the retained-coefficient count K (all other
configuration fixed) never increases the *Euclidean* reconstruction
error against a fixed curve: for every power-of-two-length curve and
`K₁ ≤ K₂`, the distance of the top-`K₂` rebuild is at most that of the
top-`K₁` rebuild.  (Monotonicity fails for ARE, per the
counterexample.) -/
theorem C5_euclidean_monotone (m K₁ K₂ : ℕ) (v : List Q2)
    (h : v.length = 2 ^ m) (hK : K₁ ≤ K₂) :
    CalculateEuclideanDistance v (rebuildPipeline m K₂ v) ≤
      CalculateEuclideanDistance v (rebuildPipeline m K₁ v) :=
  euclidean_error_mono m K₁ K₂ v h hK

/-- Witness for C5 (amended): the monotonicity instance at the
counterexample curve `[0,1,0,3]` with `K₁ = 2 ≤ K₂ = 3` — Euclidean
error shrinks there even though ARE grows. -/
theorem C5_euclidean_monotone_witness :
    CalculateEuclideanDistance [0, Q2.ofRat 1, 0, Q2.ofRat 3]
        (rebuildPipeline 2 3 [0, Q2.ofRat 1, 0, Q2.ofRat 3]) ≤
      CalculateEuclideanDistance [0, Q2.ofRat 1, 0, Q2.ofRat 3]
        (rebuildPipeline 2 2 [0, Q2.ofRat 1, 0, Q2.ofRat 3]) :=
  C5_euclidean_monotone 2 2 3 [0, Q2.ofRat 1, 0, Q2.ofRat 3] (by norm_num) (by norm_num)

/-- C3 (counterexample): at the configured budget `MEMORY_KB = 256` the
derived footprint `MEMORY = 256 * 3 * ((256*1024)/3072) * 4 = 261120`
does not equal the configured `256 * 1024 = 262144` bytes — the integer
division loses the remainder whenever `3 ∤ MEMORY_KB`. -/
theorem C3_memory_not_exact :
    Parameter.MEMORY ≠ Parameter.MEMORY_KB * 1024 := by
  decide
